import Mathlib

/-!
Shallow embedding of the core of `notify-bot-pr-event-action` (src/run.ts)
together with proofs about its collector, filter and formatter functions.

JavaScript `Set<string>` values are modelled as insertion-ordered,
duplicate-free `List String` values: `Set.add` appends when the element is
absent, `Array.from` is the identity, membership is string equality.
Absent (`null`) identities are modelled with `Option`.
-/

namespace NotifyBotPr

/-- A GitHub user as consumed by run.ts: a login plus a profile resource path. -/
structure User where
  login : String
  resourcePath : String
deriving DecidableEq

/-- A possibly-absent user reference (`{ user: User | null }` in the GraphQL data). -/
structure CommitUser where
  user : Option User
deriving DecidableEq

/-- The `authors` connection of a commit (`authors.nodes` in the GraphQL data). -/
structure CommitAuthors where
  nodes : List CommitUser
deriving DecidableEq

/-- One commit: object id, committer reference, and the co-author list. -/
structure CommitData where
  oid : String
  committer : CommitUser
  authors : CommitAuthors
deriving DecidableEq

/-- A node of the pull request's `commits` connection. -/
structure PullRequestCommit where
  commit : CommitData
deriving DecidableEq

/-- The commit a review refers to (only its object id is carried by the API data). -/
structure ReviewCommit where
  oid : String
deriving DecidableEq

/-- One pull-request review: its state (e.g. "APPROVED"), commit, and author. -/
structure Review where
  state : String
  commit : ReviewCommit
  author : User
deriving DecidableEq

/-- The `Input` record of src/lib.ts. `machineUsers` is a JS `Set<string>`,
modelled as a list whose membership is what the code consults. -/
structure Input where
  githubToken : String
  repositoryOwner : String
  repositoryName : String
  pullRequestNumber : Nat
  machineUsers : List String
  actor : String
  eventName : String
  eventAction : String
  prMerged : Bool
  reviewState : String
deriving DecidableEq

/-- JS `Set.add` on the insertion-ordered-list model of `Set<string>`:
append the element when it is not yet present. -/
def addUser (users : List String) (login : String) : List String :=
  if login ∈ users then users else users ++ [login]

/-- Body of the inner author loop of `collectUsersToNotify`
(src/run.ts lines 90-94): add the author's login when the user is present. -/
def authorStep (acc : List String) (author : CommitUser) : List String :=
  match author.user with
  | some u => addUser acc u.login
  | none => acc

/-- Body of the commits loop of `collectUsersToNotify` (src/run.ts lines 86-95):
add the committer's login when present, then every present author's login. -/
def commitStep (acc : List String) (node : PullRequestCommit) : List String :=
  let acc1 := match node.commit.committer.user with
    | some u => addUser acc u.login
    | none => acc
  node.commit.authors.nodes.foldl authorStep acc1

/-- Body of the reviews loop of `collectUsersToNotify` (src/run.ts lines 99-103):
add the review author's login when the review state is exactly "APPROVED". -/
def reviewStep (acc : List String) (review : Review) : List String :=
  if review.state == "APPROVED" then addUser acc review.author.login else acc

/-- Body of the assignees loop of `collectUsersToNotify`
(src/run.ts lines 105-107): add the assignee's login. -/
def assigneeStep (acc : List String) (assignee : User) : List String :=
  addUser acc assignee.login

/-- Embedding of `collectUsersToNotify` (src/run.ts lines 77-110): committers and
commit authors are always collected; authors of "APPROVED" reviews only when the
event is `pull_request`/`closed`; assignees always. -/
def collectUsersToNotify (input : Input) (commits : List PullRequestCommit)
    (reviews : List Review) (assignees : List User) : List String :=
  let users1 := commits.foldl commitStep []
  let users2 :=
    if input.eventName == "pull_request" && input.eventAction == "closed" then
      reviews.foldl reviewStep users1
    else users1
  assignees.foldl assigneeStep users2

/-- Boolean test that `needle` is an initial segment of `hay`. -/
def leadsList (needle hay : List Char) : Bool :=
  match needle, hay with
  | [], _ => true
  | _ :: _, [] => false
  | a :: as, b :: bs => a == b && leadsList as bs

/-- Boolean substring search: `occursList needle hay` holds when `needle`
occurs contiguously somewhere in `hay`. -/
def occursList (needle : List Char) : List Char → Bool
  | [] => leadsList needle []
  | c :: cs => leadsList needle (c :: cs) || occursList needle cs

/-- Embedding of the JS builtin `s.includes(t)`: `t` occurs as a substring of `s`. -/
def jsIncludes (s t : String) : Bool :=
  occursList t.data s.data

/-- Embedding of `filterUsers` (src/run.ts lines 112-132): drop the actor,
logins containing "[bot]", and configured machine users, keeping order. -/
def filterUsers (users : List String) (actor : String)
    (machineUsers : List String) : List String :=
  users.filter (fun login =>
    if login == actor then false
    else if jsIncludes login "[bot]" then false
    else if machineUsers.contains login then false
    else true)

/-- Embedding of `formatComment` (src/run.ts lines 134-165): space-joined
mentions, one space, then the action sentence. -/
def formatComment (users : List String) (input : Input) : String :=
  let mentions := String.intercalate " " (users.map (fun u => "@" ++ u))
  let action : String :=
    if input.eventName == "pull_request" then
      if input.prMerged then "Merged the pull request."
      else if input.eventAction == "closed" then "Closed the pull request."
      else "Pull request " ++ input.eventAction ++ "."
    else if input.eventName == "pull_request_review" then
      if input.reviewState == "approved" then "The pull request was approved."
      else if input.reviewState == "changes_requested" then "Changes were requested."
      else if input.reviewState == "commented" then "A comment was left on the pull request."
      else "A review was submitted."
    else "Event: " ++ input.eventName ++ "/" ++ input.eventAction
  mentions ++ " " ++ action

/-- GraphQL page metadata (`pageInfo`): whether more pages exist and the cursor. -/
structure PageInfo where
  hasNextPage : Bool
  endCursor : Option String
deriving DecidableEq

/-- A GraphQL connection: the first page of nodes plus its page metadata. -/
structure Connection (α : Type) where
  nodes : List α
  pageInfo : PageInfo
deriving DecidableEq

/-- The pull-request payload consumed by `run` (src/run.ts lines 32-60):
paged commits, paged reviews, and the assignee nodes. -/
structure PullRequest where
  commits : Connection PullRequestCommit
  reviews : Connection Review
  assignees : List User
deriving DecidableEq

/-- JS truthiness of a nullable cursor string: `null` and "" are falsy. -/
def cursorTruthy : Option String → Bool
  | none => false
  | some s => !(s == "")

/-- Embedding of the pagination step of `run` (src/run.ts lines 34-42 for commits
and 44-52 for reviews, which are textually identical up to the field): when the
first page reports a further page and a truthy cursor, append the records
returned by the fetcher for that cursor. -/
def assembleConnection {α : Type} (conn : Connection α)
    (fetchMore : String → List α) : List α :=
  if conn.pageInfo.hasNextPage && cursorTruthy conn.pageInfo.endCursor then
    conn.nodes ++ fetchMore (conn.pageInfo.endCursor.getD "")
  else conn.nodes

/-- The commit list `run` builds (src/run.ts lines 34-42). -/
def runCommits (pr : PullRequest)
    (listCommits : String → List PullRequestCommit) : List PullRequestCommit :=
  assembleConnection pr.commits listCommits

/-- The review list `run` builds (src/run.ts lines 44-52). -/
def runReviews (pr : PullRequest)
    (listReviews : String → List Review) : List Review :=
  assembleConnection pr.reviews listReviews

/-- Steps 2-4 of `run` (src/run.ts lines 34-60): assemble the paginated commit
and review lists and hand them, with the assignees, to the collector. -/
def runCollectUsers (input : Input) (pr : PullRequest)
    (listCommits : String → List PullRequestCommit)
    (listReviews : String → List Review) : List String :=
  collectUsersToNotify input (runCommits pr listCommits)
    (runReviews pr listReviews) pr.assignees

/-- Modelled from the spec: `github.listCommits` / `github.listReviews`
(src/github.ts, absent from the sources) are specified in section 6 as
`fetchMoreCommits(owner, repo, prNumber, cursor) → records` with
"repeat while more pages exist", i.e. the call returns the records of every
page from the cursor onward. The remote data is modelled as a list of pages
and a cursor as the decimal index of the page it points at; `cursorIndex`
decodes that index. -/
def cursorIndex (cursor : String) : Nat :=
  cursor.data.foldl (fun n ch => n * 10 + (ch.toNat - 48)) 0

/-- Modelled from the spec: the records of every page from the cursor onward,
which is what a fetch-more call returns after repeating while pages remain. -/
def fetchAllFrom {α : Type} (pages : List (List α)) (cursor : String) : List α :=
  ((pages.drop (cursorIndex cursor))).flatten

/-- Modelled from the spec: the first page of a paginated connection, as
`fetchPullRequest` returns it — its records, whether further pages exist, and
(iff so) the cursor of the next page. -/
def firstPage {α : Type} (pages : List (List α)) : Connection α :=
  { nodes := pages.headD []
    pageInfo :=
      { hasNextPage := decide (1 < pages.length)
        endCursor := if 1 < pages.length then some "1" else none } }

/-- Modelled from the spec: the pull-request payload whose commit and review
connections expose the first pages of the given page lists. -/
def prOfPages (cpages : List (List PullRequestCommit))
    (rpages : List (List Review)) (assignees : List User) : PullRequest :=
  { commits := firstPage cpages, reviews := firstPage rpages,
    assignees := assignees }

/-- Specification-side action sentence, written from the table in section 4.3
of the design document, with the last row's sentence carrying no trailing
period (which is what the code produces). -/
def specSentence (input : Input) : String :=
  if input.eventName = "pull_request" then
    if input.prMerged then "Merged the pull request."
    else if input.eventAction = "closed" then "Closed the pull request."
    else "Pull request " ++ input.eventAction ++ "."
  else if input.eventName = "pull_request_review" then
    if input.reviewState = "approved" then "The pull request was approved."
    else if input.reviewState = "changes_requested" then "Changes were requested."
    else if input.reviewState = "commented" then "A comment was left on the pull request."
    else "A review was submitted."
  else "Event: " ++ input.eventName ++ "/" ++ input.eventAction

/-- Specification-side substring containment: `t` occurs contiguously in `s`. -/
def ContainsSub (t s : String) : Prop :=
  ∃ p q, s.data = p ++ t.data ++ q

theorem mem_addUser {acc : List String} {x u : String} :
    u ∈ addUser acc x ↔ u ∈ acc ∨ u = x := by
  unfold addUser
  split
  · rename_i hx
    constructor
    · exact Or.inl
    · rintro (h | rfl)
      · exact h
      · exact hx
  · simp [List.mem_append]

theorem nodup_addUser {acc : List String} {x : String} (h : acc.Nodup) :
    (addUser acc x).Nodup := by
  unfold addUser
  split
  · exact h
  · rename_i hx
    simpa [List.nodup_append] using ⟨h, fun hmem => hx hmem⟩

theorem foldl_mem_iff {β : Type} {step : List String → β → List String}
    {P : β → String → Prop}
    (hstep : ∀ acc b u, u ∈ step acc b ↔ u ∈ acc ∨ P b u) :
    ∀ (l : List β) (init : List String) (u : String),
      u ∈ l.foldl step init ↔ u ∈ init ∨ ∃ b ∈ l, P b u := by
  intro l
  induction l with
  | nil => intro init u; simp
  | cons b l ih =>
    intro init u
    rw [List.foldl_cons, ih, hstep]
    constructor
    · rintro ((h | h) | ⟨b', hb', hP⟩)
      · exact Or.inl h
      · exact Or.inr ⟨b, List.mem_cons_self b l, h⟩
      · exact Or.inr ⟨b', List.mem_cons_of_mem b hb', hP⟩
    · rintro (h | ⟨b', hb', hP⟩)
      · exact Or.inl (Or.inl h)
      · rcases List.mem_cons.mp hb' with rfl | hb'
        · exact Or.inl (Or.inr hP)
        · exact Or.inr ⟨b', hb', hP⟩

theorem foldl_nodup {β : Type} {step : List String → β → List String}
    (hstep : ∀ acc b, acc.Nodup → (step acc b).Nodup) :
    ∀ (l : List β) (init : List String), init.Nodup → (l.foldl step init).Nodup := by
  intro l
  induction l with
  | nil => intro init h; simpa using h
  | cons b l ih =>
    intro init h
    rw [List.foldl_cons]
    exact ih _ (hstep _ _ h)

theorem foldl_filter_eq {β : Type} {step : List String → β → List String}
    {p : β → Bool} (h : ∀ acc b, p b = false → step acc b = acc) :
    ∀ (l : List β) (init : List String),
      (l.filter p).foldl step init = l.foldl step init := by
  intro l
  induction l with
  | nil => intro init; rfl
  | cons b l ih =>
    intro init
    by_cases hp : p b
    · rw [List.filter_cons_of_pos hp, List.foldl_cons, List.foldl_cons, ih]
    · rw [List.filter_cons_of_neg (by simpa using hp), List.foldl_cons,
        h init b (by simpa using hp), ih]

theorem exists_mem_perm {β : Type} {l1 l2 : List β} (h : l1.Perm l2)
    (P : β → Prop) : (∃ b ∈ l1, P b) ↔ ∃ b ∈ l2, P b := by
  constructor
  · rintro ⟨b, hb, hP⟩; exact ⟨b, h.mem_iff.mp hb, hP⟩
  · rintro ⟨b, hb, hP⟩; exact ⟨b, h.mem_iff.mpr hb, hP⟩

theorem mem_authorStep :
    ∀ (acc : List String) (a : CommitUser) (u : String),
      u ∈ authorStep acc a ↔ u ∈ acc ∨ ∃ w, a.user = some w ∧ w.login = u := by
  intro acc a u
  unfold authorStep
  cases ha : a.user with
  | none => simp [ha]
  | some w => simp [ha, mem_addUser, eq_comm]

theorem mem_commitStep :
    ∀ (acc : List String) (c : PullRequestCommit) (u : String),
      u ∈ commitStep acc c ↔ u ∈ acc ∨
        ((∃ w, c.commit.committer.user = some w ∧ w.login = u) ∨
         (∃ a ∈ c.commit.authors.nodes, ∃ w, a.user = some w ∧ w.login = u)) := by
  intro acc c u
  unfold commitStep
  rw [foldl_mem_iff mem_authorStep]
  cases hc : c.commit.committer.user with
  | none => simp [hc]
  | some w => simp [hc, mem_addUser, eq_comm]; tauto

theorem mem_reviewStep :
    ∀ (acc : List String) (r : Review) (u : String),
      u ∈ reviewStep acc r ↔ u ∈ acc ∨ (r.state = "APPROVED" ∧ r.author.login = u) := by
  intro acc r u
  unfold reviewStep
  by_cases h : r.state = "APPROVED"
  · simp [h, mem_addUser, eq_comm]
  · simp [h]

theorem mem_assigneeStep :
    ∀ (acc : List String) (a : User) (u : String),
      u ∈ assigneeStep acc a ↔ u ∈ acc ∨ a.login = u := by
  intro acc a u
  unfold assigneeStep
  simp [mem_addUser, eq_comm]

theorem nodup_authorStep : ∀ (acc : List String) (a : CommitUser),
    acc.Nodup → (authorStep acc a).Nodup := by
  intro acc a h
  cases ha : a.user with
  | none => simpa [authorStep, ha] using h
  | some w => simp only [authorStep, ha]; exact nodup_addUser h

theorem nodup_commitStep : ∀ (acc : List String) (c : PullRequestCommit),
    acc.Nodup → (commitStep acc c).Nodup := by
  intro acc c h
  unfold commitStep
  apply foldl_nodup nodup_authorStep
  cases hc : c.commit.committer.user with
  | none => exact h
  | some w => exact nodup_addUser h

theorem nodup_reviewStep : ∀ (acc : List String) (r : Review),
    acc.Nodup → (reviewStep acc r).Nodup := by
  intro acc r h
  unfold reviewStep
  split
  · exact nodup_addUser h
  · exact h

theorem nodup_assigneeStep : ∀ (acc : List String) (a : User),
    acc.Nodup → (assigneeStep acc a).Nodup := by
  intro acc a h
  exact nodup_addUser h

/-- Characterisation of membership in the collector's result: a login is
collected iff it comes from a present committer or commit author, from the
author of an "APPROVED" review under the `pull_request`/`closed` gate, or
from an assignee. -/
theorem mem_collectUsersToNotify (input : Input) (commits : List PullRequestCommit)
    (reviews : List Review) (assignees : List User) (u : String) :
    u ∈ collectUsersToNotify input commits reviews assignees ↔
      (∃ c ∈ commits,
        (∃ w, c.commit.committer.user = some w ∧ w.login = u) ∨
        (∃ a ∈ c.commit.authors.nodes, ∃ w, a.user = some w ∧ w.login = u)) ∨
      ((input.eventName = "pull_request" ∧ input.eventAction = "closed") ∧
        (∃ r ∈ reviews, r.state = "APPROVED" ∧ r.author.login = u)) ∨
      (∃ a ∈ assignees, a.login = u) := by
  simp only [collectUsersToNotify]
  rw [foldl_mem_iff mem_assigneeStep]
  by_cases hg : (input.eventName == "pull_request" && input.eventAction == "closed") = true
  · rw [if_pos hg, foldl_mem_iff mem_reviewStep, foldl_mem_iff mem_commitStep]
    have hp : input.eventName = "pull_request" ∧ input.eventAction = "closed" := by
      simpa [Bool.and_eq_true] using hg
    simp only [List.not_mem_nil, false_or]
    simp [hp.1, hp.2, or_assoc]
  · rw [if_neg hg, foldl_mem_iff mem_commitStep]
    have hp : ¬(input.eventName = "pull_request" ∧ input.eventAction = "closed") := by
      rintro ⟨h1, h2⟩
      exact hg (by simp [h1, h2])
    simp only [List.not_mem_nil, false_or]
    simp [hp, or_assoc]

/-- The collector's result never repeats a login. -/
theorem nodup_collectUsersToNotify (input : Input) (commits : List PullRequestCommit)
    (reviews : List Review) (assignees : List User) :
    (collectUsersToNotify input commits reviews assignees).Nodup := by
  simp only [collectUsersToNotify]
  apply foldl_nodup nodup_assigneeStep
  split
  · exact foldl_nodup nodup_reviewStep _ _ (foldl_nodup nodup_commitStep _ _ List.nodup_nil)
  · exact foldl_nodup nodup_commitStep _ _ List.nodup_nil

theorem leadsList_iff : ∀ (n h : List Char), leadsList n h = true ↔ ∃ r, h = n ++ r := by
  intro n
  induction n with
  | nil => intro h; simp [leadsList]
  | cons a as ih =>
    intro h
    cases h with
    | nil =>
      simp [leadsList]
    | cons b bs =>
      simp only [leadsList, Bool.and_eq_true, beq_iff_eq, ih bs]
      constructor
      · rintro ⟨rfl, r, rfl⟩
        exact ⟨r, rfl⟩
      · rintro ⟨r, hEq⟩
        rw [List.cons_append] at hEq
        injection hEq with h1 h2
        exact ⟨h1.symm, r, h2⟩

theorem occursList_iff (n : List Char) :
    ∀ h : List Char, occursList n h = true ↔ ∃ p q, h = p ++ n ++ q := by
  intro h
  induction h with
  | nil =>
    simp only [occursList]
    rw [leadsList_iff]
    constructor
    · rintro ⟨r, hr⟩
      exact ⟨[], r, by simpa using hr⟩
    · rintro ⟨p, q, hpq⟩
      have h0 : (p ++ n) ++ q = [] := hpq.symm
      rcases List.append_eq_nil.mp h0 with ⟨h1, h2⟩
      rcases List.append_eq_nil.mp h1 with ⟨h3, h4⟩
      exact ⟨[], by simp [h4]⟩
  | cons c cs ih =>
    simp only [occursList, Bool.or_eq_true, ih]
    rw [leadsList_iff]
    constructor
    · rintro (⟨r, hr⟩ | ⟨p, q, hpq⟩)
      · exact ⟨[], r, by simpa using hr⟩
      · exact ⟨c :: p, q, by simp [hpq]⟩
    · rintro ⟨p, q, hpq⟩
      cases p with
      | nil => exact Or.inl ⟨q, by simpa using hpq⟩
      | cons x xs =>
        rw [List.cons_append, List.cons_append] at hpq
        injection hpq with h1 h2
        exact Or.inr ⟨xs, q, h2⟩

instance instDecidableContainsSub (t s : String) : Decidable (ContainsSub t s) :=
  decidable_of_iff (occursList t.data s.data = true)
    (by unfold ContainsSub; exact occursList_iff t.data s.data)

theorem jsIncludes_iff (s t : String) : jsIncludes s t = true ↔ ContainsSub t s := by
  unfold jsIncludes ContainsSub
  exact occursList_iff t.data s.data

/-- The formatter always produces the space-joined mentions, a space, and the
sentence given by the specification table (with the periodless default row). -/
theorem formatComment_eq (users : List String) (input : Input) :
    formatComment users input =
      String.intercalate " " (users.map (fun u => "@" ++ u)) ++ " " ++ specSentence input := by
  unfold formatComment specSentence
  by_cases h1 : input.eventName = "pull_request"
  · by_cases h2 : input.prMerged = true
    · simp [h1, h2]
    · by_cases h3 : input.eventAction = "closed"
      · simp [h1, h2, h3]
      · simp [h1, h2, h3]
  · by_cases h4 : input.eventName = "pull_request_review"
    · by_cases h5 : input.reviewState = "approved"
      · simp [h1, h4, h5]
      · by_cases h6 : input.reviewState = "changes_requested"
        · simp [h1, h4, h5, h6]
        · by_cases h7 : input.reviewState = "commented"
          · simp [h1, h4, h5, h6, h7]
          · simp [h1, h4, h5, h6, h7]
    · simp [h1, h4]

/-- Assembling a connection whose first page and fetcher come from the
spec-modelled paginated remote yields the records of every page. -/
theorem assemble_firstPage {α : Type} (pages : List (List α)) :
    assembleConnection (firstPage pages) (fetchAllFrom pages) = pages.flatten := by
  match pages with
  | [] => rfl
  | [p] => simp [assembleConnection, firstPage, cursorTruthy]
  | p :: q :: rest =>
    have hl : 1 < (p :: q :: rest).length := by
      simp [List.length_cons]
    have hc : cursorIndex "1" = 1 := by decide
    simp [assembleConnection, firstPage, fetchAllFrom, cursorTruthy, hl, hc]

/-- Specification-side cleanup of a commit: drop the author entries whose user
is absent (the committer reference is untouched). -/
def pruneCommit (c : PullRequestCommit) : PullRequestCommit :=
  ⟨⟨c.commit.oid, c.commit.committer,
    ⟨c.commit.authors.nodes.filter (fun a => a.user.isSome)⟩⟩⟩

theorem commitStep_pruneCommit (acc : List String) (c : PullRequestCommit) :
    commitStep acc (pruneCommit c) = commitStep acc c := by
  have habs : ∀ (acc2 : List String) (a : CommitUser),
      (a.user.isSome) = false → authorStep acc2 a = acc2 := by
    intro acc2 a ha
    cases hu : a.user with
    | none => simp [authorStep, hu]
    | some w => rw [hu] at ha; exact absurd ha (by simp)
  unfold commitStep pruneCommit
  dsimp only
  rw [foldl_filter_eq habs]

theorem foldl_authorStep_absent :
    ∀ (l : List CommitUser) (acc : List String),
      (∀ a ∈ l, a.user = none) → l.foldl authorStep acc = acc := by
  intro l
  induction l with
  | nil => intro acc _; rfl
  | cons a l ih =>
    intro acc h
    rw [List.foldl_cons]
    have ha : authorStep acc a = acc := by
      simp [authorStep, h a (List.mem_cons_self a l)]
    rw [ha, ih acc (fun b hb => h b (List.mem_cons_of_mem a hb))]

theorem commitStep_absent (acc : List String) (c : PullRequestCommit)
    (hc : c.commit.committer.user = none)
    (ha : ∀ a ∈ c.commit.authors.nodes, a.user = none) :
    commitStep acc c = acc := by
  unfold commitStep
  rw [hc]
  exact foldl_authorStep_absent _ _ ha

/-- Sample context used by the concrete witnesses below. -/
def sampleInput : Input :=
  { githubToken := "", repositoryOwner := "o", repositoryName := "r",
    pullRequestNumber := 1, machineUsers := [], actor := "alice",
    eventName := "pull_request", eventAction := "closed", prMerged := true,
    reviewState := "" }

/-- Sample context for a `pull_request_review` event. -/
def reviewInput : Input :=
  { sampleInput with eventName := "pull_request_review", eventAction := "submitted" }

/-- Sample context for an eventName outside the two handled ones. -/
def workflowInput : Input :=
  { sampleInput with
    eventName := "workflow_run"
    eventAction := "completed"
    prMerged := false }

/-- Another sample context for an eventName outside the two handled ones. -/
def pushInput : Input :=
  { sampleInput with eventName := "push", eventAction := "opened", prMerged := false }

/-- A third sample context for an eventName outside the two handled ones. -/
def deployInput : Input :=
  { sampleInput with
    eventName := "deployment"
    eventAction := "created"
    prMerged := false }

/-- Sample context that differs from `sampleInput` only in fields the
formatter is not supposed to read. -/
def secretInput : Input :=
  { sampleInput with
    githubToken := "token-A"
    repositoryOwner := "x"
    repositoryName := "y"
    pullRequestNumber := 99
    machineUsers := ["m1"]
    actor := "mallory" }

/-- Sample approved review authored by bob. -/
def sampleReview : Review := ⟨"APPROVED", ⟨"abc"⟩, ⟨"bob", "/bob"⟩⟩

/-- Sample commit committed by alice with no co-authors. -/
def sampleCommit : PullRequestCommit := ⟨⟨"abc", ⟨some ⟨"alice", "/alice"⟩⟩, ⟨[]⟩⟩⟩

/-- Sample commit committed by bob with no co-authors. -/
def commitBob : PullRequestCommit := ⟨⟨"ghi", ⟨some ⟨"bob", "/bob"⟩⟩, ⟨[]⟩⟩⟩

/-- Sample commit whose committer and single author are both absent. -/
def absentCommit : PullRequestCommit := ⟨⟨"def", ⟨none⟩, ⟨[⟨none⟩]⟩⟩⟩

/-- Sample assignee. -/
def sampleAssignee : User := ⟨"carol", "/carol"⟩

/-- C1: the collector adds a review author's login iff the context is a
`pull_request`/`closed` event and the review state is exactly "APPROVED";
under a `pull_request_review` event the reviews are ignored entirely, even
when "APPROVED" reviews are present. -/
theorem collect_approvers_gated (input : Input) (commits : List PullRequestCommit)
    (reviews : List Review) (assignees : List User) :
    (∀ u, u ∈ collectUsersToNotify input commits reviews assignees ↔
        u ∈ collectUsersToNotify input commits [] assignees ∨
        ((input.eventName = "pull_request" ∧ input.eventAction = "closed") ∧
          ∃ r ∈ reviews, r.state = "APPROVED" ∧ r.author.login = u)) ∧
    (input.eventName = "pull_request_review" →
      collectUsersToNotify input commits reviews assignees =
        collectUsersToNotify input commits [] assignees) := by
  constructor
  · intro u
    rw [mem_collectUsersToNotify]
    have h0 := mem_collectUsersToNotify input commits [] assignees u
    simp only [List.not_mem_nil, false_and, exists_false, and_false, or_false,
      false_or] at h0
    rw [h0]
    constructor
    · rintro (h | h | h)
      · exact Or.inl (Or.inl h)
      · exact Or.inr h
      · exact Or.inl (Or.inr h)
    · rintro ((h | h) | h)
      · exact Or.inl h
      · exact Or.inr (Or.inr h)
      · exact Or.inr (Or.inl h)
  · intro h
    simp only [collectUsersToNotify]
    have hg : (input.eventName == "pull_request" && input.eventAction == "closed") = false := by
      simp [h]
    rw [hg]
    simp

/-- Witness for C1: at a concrete `pull_request_review` context an "APPROVED"
review leaves the collector's result unchanged. -/
theorem collect_approvers_gated_wit :
    collectUsersToNotify reviewInput [] [sampleReview] [] =
      collectUsersToNotify reviewInput [] [] [] :=
  (collect_approvers_gated reviewInput [] [sampleReview] []).2 rfl

/-- C2: with the paginated remote modelled from the spec, the orchestrator's
commit and review lists carry the records of every page, and the collector
receives exactly those full lists, for any number of pages. -/
theorem run_fetches_all_pages (input : Input)
    (cpages : List (List PullRequestCommit)) (rpages : List (List Review))
    (assignees : List User) :
    runCommits (prOfPages cpages rpages assignees) (fetchAllFrom cpages) =
      cpages.flatten ∧
    runReviews (prOfPages cpages rpages assignees) (fetchAllFrom rpages) =
      rpages.flatten ∧
    runCollectUsers input (prOfPages cpages rpages assignees)
        (fetchAllFrom cpages) (fetchAllFrom rpages) =
      collectUsersToNotify input cpages.flatten rpages.flatten assignees := by
  refine ⟨assemble_firstPage cpages, assemble_firstPage rpages, ?_⟩
  unfold runCollectUsers runCommits runReviews prOfPages
  dsimp only
  rw [assemble_firstPage cpages, assemble_firstPage rpages]

/-- C3 counterexample: for eventName "workflow_run" the formatter emits the
sentence without a trailing period, refuting the claimed string. -/
theorem formatComment_default_period_cex :
    formatComment ["user1"] workflowInput = "@user1 Event: workflow_run/completed" ∧
    "@user1 Event: workflow_run/completed" ≠ "@user1 Event: workflow_run/completed." := by
  exact ⟨by decide, by decide⟩

/-- C3 (amended): for every input whose eventName is neither "pull_request"
nor "pull_request_review", the output is the space-joined mentions, a single
space, then exactly "Event: {eventName}/{eventAction}" with no trailing
period. -/
theorem formatComment_default_event (users : List String) (input : Input)
    (h1 : input.eventName ≠ "pull_request")
    (h2 : input.eventName ≠ "pull_request_review") :
    formatComment users input =
      String.intercalate " " (users.map (fun u => "@" ++ u)) ++ " " ++
        ("Event: " ++ input.eventName ++ "/" ++ input.eventAction) := by
  rw [formatComment_eq]
  unfold specSentence
  rw [if_neg h1, if_neg h2]

/-- Witness for C3 at the concrete "workflow_run" context. -/
theorem formatComment_default_event_wit :
    formatComment ["user1"] workflowInput =
      String.intercalate " " ((["user1"]).map (fun u => "@" ++ u)) ++ " " ++
        ("Event: " ++ workflowInput.eventName ++ "/" ++ workflowInput.eventAction) :=
  formatComment_default_event ["user1"] workflowInput (by decide) (by decide)

/-- C4: the filter returns the order-preserving refinement of the candidate
list keeping exactly the logins that differ from the actor, do not contain
the substring "[bot]", and are not machine users; on the empty candidate set
it returns the empty list. -/
theorem filterUsers_spec (users : List String) (actor : String)
    (machineUsers : List String) :
    filterUsers users actor machineUsers =
      users.filter (fun u =>
        decide (u ≠ actor ∧ ¬ ContainsSub "[bot]" u ∧ u ∉ machineUsers)) ∧
    filterUsers [] actor machineUsers = [] := by
  constructor
  · unfold filterUsers
    apply List.filter_congr
    intro login hmem
    by_cases h1 : login = actor
    · simp [h1]
    · by_cases h2 : ContainsSub "[bot]" login
      · have hj : jsIncludes login "[bot]" = true := (jsIncludes_iff _ _).mpr h2
        simp [h1, hj, h2]
      · have hj : jsIncludes login "[bot]" = false := by
          rw [← Bool.not_eq_true, jsIncludes_iff]
          exact h2
        by_cases h3 : login ∈ machineUsers
        · simp [h1, hj, h2, h3, List.contains]
        · simp [h1, hj, h2, h3, List.contains]
  · rfl

/-- C5 counterexample: the section 4.3 table's default row claims a trailing
period which the code does not emit, already for a non-empty user list. -/
theorem formatComment_table_period_cex :
    formatComment ["user1"] pushInput = "@user1 Event: push/opened" ∧
    "@user1 Event: push/opened" ≠ "@user1 Event: push/opened." := by
  exact ⟨by decide, by decide⟩

/-- C5 (amended): for every non-empty user list the formatter returns the
space-joined mentions, a space, and the sentence of the section 4.3 table
evaluated with the merged check before the closed check, where the
any-other-eventName row carries no trailing period. -/
theorem formatComment_nonempty_table (users : List String) (input : Input)
    (_h : users ≠ []) :
    formatComment users input =
      String.intercalate " " (users.map (fun u => "@" ++ u)) ++ " " ++
        specSentence input :=
  formatComment_eq users input

/-- Witness for C5 on a two-user list at a merged `pull_request` context. -/
theorem formatComment_nonempty_table_wit :
    (["user1", "user2"] : List String) ≠ [] ∧
    formatComment ["user1", "user2"] sampleInput =
      String.intercalate " " ((["user1", "user2"]).map (fun u => "@" ++ u)) ++ " " ++
        specSentence sampleInput :=
  ⟨by decide, formatComment_nonempty_table ["user1", "user2"] sampleInput (by decide)⟩

/-- C6: membership in the collector's result is invariant under permutations
of the commits, reviews and assignees lists, and every collected login
appears exactly once. -/
theorem collect_order_invariant (input : Input)
    (c1 c2 : List PullRequestCommit) (r1 r2 : List Review) (a1 a2 : List User)
    (hc : c1.Perm c2) (hr : r1.Perm r2) (ha : a1.Perm a2) :
    (∀ u, u ∈ collectUsersToNotify input c1 r1 a1 ↔
        u ∈ collectUsersToNotify input c2 r2 a2) ∧
    (∀ u ∈ collectUsersToNotify input c1 r1 a1,
      (collectUsersToNotify input c1 r1 a1).count u = 1) := by
  constructor
  · intro u
    rw [mem_collectUsersToNotify, mem_collectUsersToNotify]
    rw [exists_mem_perm hc, exists_mem_perm hr, exists_mem_perm ha]
  · intro u hu
    exact List.count_eq_one_of_mem (nodup_collectUsersToNotify input c1 r1 a1) hu

/-- Witness for C6: swapping two concrete commits preserves membership, and a
login contributed once is counted once. -/
theorem collect_order_invariant_wit :
    ("alice" ∈ collectUsersToNotify sampleInput [sampleCommit, commitBob] [] [] ↔
      "alice" ∈ collectUsersToNotify sampleInput [commitBob, sampleCommit] [] []) ∧
    (collectUsersToNotify sampleInput [sampleCommit, commitBob] [] []).count "alice" = 1 :=
  ⟨(collect_order_invariant sampleInput [sampleCommit, commitBob]
      [commitBob, sampleCommit] [] [] [] []
      (List.Perm.swap commitBob sampleCommit []) (List.Perm.refl [])
      (List.Perm.refl [])).1 "alice",
   (collect_order_invariant sampleInput [sampleCommit, commitBob]
      [commitBob, sampleCommit] [] [] [] []
      (List.Perm.swap commitBob sampleCommit []) (List.Perm.refl [])
      (List.Perm.refl [])).2 "alice" (by decide)⟩

/-- C7: absent identities contribute nothing and cause no error — dropping the
absent author entries of every commit leaves the result unchanged, and a
commit whose committer and authors are all absent contributes nothing. -/
theorem collect_skips_absent (input : Input) (commits : List PullRequestCommit)
    (reviews : List Review) (assignees : List User) :
    (collectUsersToNotify input (commits.map pruneCommit) reviews assignees =
      collectUsersToNotify input commits reviews assignees) ∧
    (∀ c : PullRequestCommit, c.commit.committer.user = none →
      (∀ a ∈ c.commit.authors.nodes, a.user = none) →
      collectUsersToNotify input (c :: commits) reviews assignees =
        collectUsersToNotify input commits reviews assignees) := by
  constructor
  · simp only [collectUsersToNotify]
    have hu : (commits.map pruneCommit).foldl commitStep [] =
        commits.foldl commitStep [] := by
      rw [List.foldl_map]
      have hfun : (fun (acc : List String) (c : PullRequestCommit) =>
          commitStep acc (pruneCommit c)) = commitStep := by
        funext acc c
        exact commitStep_pruneCommit acc c
      rw [hfun]
    rw [hu]
  · intro c hc ha
    simp only [collectUsersToNotify, List.foldl_cons]
    rw [commitStep_absent [] c hc ha]

/-- Witness for C7: a concrete commit with absent committer and absent author
contributes nothing next to a concrete assignee. -/
theorem collect_skips_absent_wit :
    collectUsersToNotify sampleInput [absentCommit] [] [sampleAssignee] =
      collectUsersToNotify sampleInput [] [] [sampleAssignee] :=
  (collect_skips_absent sampleInput [] [] [sampleAssignee]).2 absentCommit rfl (by decide)

/-- C8 counterexample: on the empty user list and an unhandled eventName the
formatter emits no trailing period, refuting the claimed table sentence. -/
theorem formatComment_empty_period_cex :
    formatComment [] deployInput = " Event: deployment/created" ∧
    " Event: deployment/created" ≠ " Event: deployment/created." := by
  exact ⟨by decide, by decide⟩

/-- C8 (amended): on the empty user list the formatter returns a single space
followed by the action sentence of the section 4.3 table, whose
any-other-eventName row carries no trailing period. -/
theorem formatComment_empty_list (input : Input) :
    formatComment [] input = " " ++ specSentence input := by
  rw [formatComment_eq]
  rfl

/-- C9: the formatter reads only eventName, eventAction, prMerged and
reviewState — two contexts agreeing on those fields produce identical output
for the same user list, whatever the token, repository, number, machine
users or actor. -/
theorem formatComment_noninterference (users : List String) (i1 i2 : Input)
    (h1 : i1.eventName = i2.eventName) (h2 : i1.eventAction = i2.eventAction)
    (h3 : i1.prMerged = i2.prMerged) (h4 : i1.reviewState = i2.reviewState) :
    formatComment users i1 = formatComment users i2 := by
  rw [formatComment_eq, formatComment_eq]
  have hs : specSentence i1 = specSentence i2 := by
    unfold specSentence
    rw [h1, h2, h3, h4]
  rw [hs]

/-- Witness for C9: changing token, repository, number, machine users and
actor leaves the comment unchanged. -/
theorem formatComment_noninterference_wit :
    formatComment ["user1"] sampleInput = formatComment ["user1"] secretInput :=
  formatComment_noninterference ["user1"] sampleInput secretInput rfl rfl rfl rfl

/-- C10: every collected login stems from a present committer, a present
commit author, the author of an "APPROVED" review, or an assignee — the
collector introduces no login of its own. -/
theorem collect_provenance (input : Input) (commits : List PullRequestCommit)
    (reviews : List Review) (assignees : List User) :
    ∀ u ∈ collectUsersToNotify input commits reviews assignees,
      (∃ c ∈ commits,
        (∃ w, c.commit.committer.user = some w ∧ w.login = u) ∨
        (∃ a ∈ c.commit.authors.nodes, ∃ w, a.user = some w ∧ w.login = u)) ∨
      (∃ r ∈ reviews, r.state = "APPROVED" ∧ r.author.login = u) ∨
      (∃ a ∈ assignees, a.login = u) := by
  intro u hu
  rcases (mem_collectUsersToNotify input commits reviews assignees u).mp hu with
    h | ⟨_, h⟩ | h
  · exact Or.inl h
  · exact Or.inr (Or.inl h)
  · exact Or.inr (Or.inr h)

/-- Witness for C10 at a concrete commit authored by alice. -/
theorem collect_provenance_wit :
    (∃ c ∈ [sampleCommit],
        (∃ w, c.commit.committer.user = some w ∧ w.login = "alice") ∨
        (∃ a ∈ c.commit.authors.nodes, ∃ w, a.user = some w ∧ w.login = "alice")) ∨
      (∃ r ∈ ([] : List Review), r.state = "APPROVED" ∧ r.author.login = "alice") ∨
      (∃ a ∈ ([] : List User), a.login = "alice") :=
  collect_provenance sampleInput [sampleCommit] [] [] "alice" (by decide)

end NotifyBotPr
